import Mathlib

/-!
Verification of the smolmsg message codec.

The Go sources are shallowly embedded: byte streams are `List Nat` (each
entry one byte), Go strings become byte lists, machine integers become
`Nat`/`Int` with explicit `% 2 ^ w` where truncation matters, and fallible
operations return `Except`/`Option`.  Library functions whose internals the
codec does not depend on (Unicode NFC normalization, Unicode lower-casing,
the two `time.Parse` formats, and SHA-256) are passed in as explicit function
parameters: the codec only ever applies them, so every theorem below holds
for all instantiations, and concrete witnesses instantiate them with the
identity (exact for the ASCII inputs used) or constant digests.
-/

deriving instance DecidableEq for Except

namespace Smolmsg

/-- Byte list of a string literal (all literals used are ASCII, where Go's
UTF-8 byte view coincides with the code points). -/
def bytes (s : String) : List Nat :=
  s.data.map Char.toNat

/-- `bytes.IndexByte` from the Go standard library: index of the first
occurrence of `b`, `none` when absent (Go returns -1). -/
def indexOfByte (b : Nat) : List Nat → Option Nat
  | [] => none
  | c :: l => if c == b then some 0 else (indexOfByte b l).map (· + 1)

/-- ASCII fragment of Go's `unicode.IsSpace` (the only inputs the codec
trims are single-line header values; multi-byte Unicode spaces would appear
as individual non-matching bytes here, matching Go's byte-level behaviour on
the ASCII subset the claims exercise). -/
def isSpaceByte (c : Nat) : Bool :=
  c == 32 || (9 ≤ c && c ≤ 13)

/-- `bytes.TrimSpace`: drop leading and trailing whitespace bytes. -/
def trimSpace (l : List Nat) : List Nat :=
  ((l.dropWhile isSpaceByte).reverse.dropWhile isSpaceByte).reverse

/-- `strconv.ParseUint(s, 10, 64)`: nonempty all-decimal-digit string whose
value fits in 64 bits; anything else is an error (`none`). -/
def parseUint10 (l : List Nat) : Option Nat :=
  if l = [] then none
  else if l.all (fun c => 48 ≤ c && c ≤ 57) then
    let v := l.foldl (fun acc c => acc * 10 + (c - 48)) 0
    if v < 2 ^ 64 then some v else none
  else none

/-- Go's `strings.ToLower` restricted to its ASCII action (exact on the
ASCII inputs used by the concrete theorems below). -/
def toLowerAscii (l : List Nat) : List Nat :=
  l.map (fun c => if 65 ≤ c ∧ c ≤ 90 then c + 32 else c)

/-! ## HashingCountingReader (src/unnamed/part_001) -/

/-- Error value accompanying an underlying read, as seen by the wrapper. -/
inductive RdErr
  | eofErr
  | otherErr
deriving DecidableEq

/-- The wrapper's mutable state: the consumed-byte counter `nread` and the
transcript of bytes written into the running SHA-256 digest (the digest is
a pure function of this transcript, so feeding equal byte sequences is
modelled as transcript equality). -/
structure HashingCountingReader where
  nread : Nat
  hashed : List Nat
deriving DecidableEq

/-- `HashingCountingReader.Read`: the underlying reader's result is the pair
`res` of delivered bytes and optional error; the wrapper passes both through
unchanged and, only when the error is nil, advances `nread` and writes the
delivered bytes to the hash. -/
def HashingCountingReader.Read (r : HashingCountingReader)
    (res : List Nat × Option RdErr) :
    (List Nat × Option RdErr) × HashingCountingReader :=
  match res with
  | (p, none) => ((p, none), ⟨r.nread + p.length, r.hashed ++ p⟩)
  | (p, some e) => ((p, some e), r)

/-! ## ilog2 and the parse buffer size (src/unnamed/part_001, part_000) -/

/-- Floor base-2 logarithm by halving; `fuel` bounds the recursion depth
(64 mirrors the 64-bit width over which `bits.LeadingZeros64` operates,
and suffices for every `n < 2 ^ 64`). -/
def log2floor : Nat → Nat → Nat
  | 0, _ => 0
  | fuel + 1, n => if n ≤ 1 then 0 else log2floor fuel (n / 2) + 1

/-- `ilog2` from the Go sources: 1 for `n ≤ 1`, otherwise
`(64 - bits.LeadingZeros64(n)) - 1`, the floor base-2 logarithm of a 64-bit
value. -/
def ilog2 (n : Nat) : Nat :=
  if n ≤ 1 then 1 else log2floor 64 n

/-- The read-buffer size `ParseReader` computes from its size hint:
`bufsize := srcsize + 1`, capped at 4096, then `1 << ilog2 bufsize`. -/
def parseBufSize (srcsize : Nat) : Nat :=
  let bufsize := srcsize + 1
  let bufsize := if bufsize > 4096 then 4096 else bufsize
  1 <<< ilog2 bufsize

/-- The buffer size as the spec's words describe it: the hint rounded down
to the nearest power of two, capped at 4096 (stated for comparison with
`parseBufSize`). -/
def specHintBufSize (h : Nat) : Nat :=
  min (2 ^ Nat.log2 h) 4096

/-! ## Data model (src/unnamed/part_000) -/

/-- `Author`: normalized address plus free-text display name (byte lists). -/
structure Author where
  address : List Nat
  name : List Nat
deriving DecidableEq

/-- `Attachment`: lazy reference to payload bytes in the original stream. -/
structure Attachment where
  name : List Nat
  dataStart : Nat
  dataLen : Nat
deriving DecidableEq

/-- `Message`: `id` is the 24-byte identifier (list of byte values), `time`
the resolved Unix-seconds value of `m.time` (`time.Time.Unix()`). -/
structure Message where
  id : List Nat
  time : Int
  subject : List Nat
  «from» : Author
  «to» : Author
  body : List Nat
  files : List Attachment
deriving DecidableEq

/-- The Go zero `Message` with an externally supplied `time` (as set by
`SetTimeFromFilename` before `ParseReader` runs). -/
def freshMessage (t : Int) : Message :=
  ⟨List.replicate 24 0, t, [], ⟨[], []⟩, ⟨[], []⟩, [], []⟩

/-- The `FIELD_*` constants. -/
inductive Field
  | subject
  | «from»
  | «to»
  | time
  | body
  | file
deriving DecidableEq

/-- Error kinds produced by the codec (Go uses formatted error strings; the
kind identifies the `errorf`/library error site). `internal` marks the
fuel-exhaustion branch of the loop, which is unreachable for the fuel
`ParseReader` supplies. -/
inductive PErr
  | fieldTooLong
  | invalidLeadingSpace
  | unknownField
  | missingAddress
  | invalidAddress
  | invalidTimeFormat
  | invalidSize
  | bodyTooLarge
  | truncatedBody
  | truncatedAttachment
  | negativeCount
  | timestampInPast
  | internal
deriving DecidableEq

/-- `MAX_BODY_SIZE = 8 * 1024 * 1024`. -/
def MAX_BODY_SIZE : Nat := 8 * 1024 * 1024

/-- `idEpochBase = 1600000000`. -/
def idEpochBase : Int := 1600000000

/-- The `fieldtab` map from field keyword to `FIELD_*` constant. -/
def fieldtab (key : List Nat) : Option Field :=
  if key = bytes "subject" then some .subject
  else if key = bytes "from" then some .«from»
  else if key = bytes "to" then some .«to»
  else if key = bytes "time" then some .time
  else if key = bytes "body" then some .body
  else if key = bytes "file" then some .file
  else none

/-! ## Address normalization and Author parsing -/

/-- `normalizeAndValidateAddress`: NFC-normalize, lower-case, then require
an '@' (byte 64) to be present; its absence is the invalid-address error.
`nfc` and `lower` stand for `norm.NFC.String` and `strings.ToLower`. -/
def normalizeAndValidateAddress (nfc lower : List Nat → List Nat)
    (address : List Nat) : Except PErr (List Nat) :=
  let address := lower (nfc address)
  if 64 ∈ address then .ok address else .error .invalidAddress

/-- `Author.Parse`: trim, reject empty, split display name at the first
space, then normalize and validate the address part.  Mirrors the Go
in-place mutation by always returning the (possibly partially) updated
author next to the optional error. -/
def Author.Parse (nfc lower : List Nat → List Nat) (a : Author)
    (line : List Nat) : Option PErr × Author :=
  let l := trimSpace line
  if l = [] then (some .missingAddress, a)
  else
    let (a1, l1) :=
      match indexOfByte 32 l with
      | some p => ({ a with name := trimSpace (l.drop p) }, l.take p)
      | none => (a, l)
    match normalizeAndValidateAddress nfc lower l1 with
    | .ok addr => (none, { a1 with address := addr })
    | .error e => (some e, a1)

/-! ## Line reading (bufio.Reader.ReadLine over a pure byte stream)

`rest` is the undelivered remainder of the stream; `k` the buffer capacity.
`ReadLine` returns EOF on an empty remainder, reports a too-long line when
no newline occurs within the buffer capacity while at least `k` bytes
remain, and otherwise delivers the next line (terminating `"\n"` or
`"\r\n"` stripped; a final unterminated line is delivered whole). -/

/-- Result of one `ReadLine` call: `consumed` counts every byte removed from
the stream, terminator included. -/
inductive ReadLineResult
  | eof
  | tooLong
  | line (l : List Nat) (consumed : Nat)
deriving DecidableEq

/-- One `bufio.Reader.ReadLine` step with buffer capacity `k`. -/
def readLine (k : Nat) (rest : List Nat) : ReadLineResult :=
  if rest = [] then .eof
  else
    match indexOfByte 10 (rest.take k) with
    | some i =>
      let raw := rest.take i
      let l := if raw.getLast? = some 13 then raw.dropLast else raw
      .line l (i + 1)
    | none =>
      if k ≤ rest.length then .tooLong
      else .line rest rest.length

/-! ## The parse loop (Message.ParseReader body) -/

/-- Handling of one header line `l`.  `rest` is the stream remainder after
the line, `pos` the number of bytes delivered so far (the value of
`cr.nread - br.Buffered()` at this moment).  Returns the updated message,
remainder and position, or the error paired with the message state the
caller observes (Go mutates `m` in place). -/
def handleLine (nfc lower : List Nat → List Nat) (ptime : List Nat → Option Int)
    (l rest : List Nat) (pos : Nat) (m : Message) :
    Except (PErr × Message) (Message × List Nat × Nat) :=
  let fi := indexOfByte 32 l
  if fi = some 0 then .error (.invalidLeadingSpace, m)
  else if l = [] then .ok (m, rest, pos)
  else
    let p := fi.getD l.length
    let key := l.take p
    let val := l.drop p
    match fieldtab key with
    | none =>
      if key.take 2 = bytes "x-" then .ok (m, rest, pos)
      else .error (.unknownField, m)
    | some .subject => .ok ({ m with subject := trimSpace val }, rest, pos)
    | some .«from» =>
      match Author.Parse nfc lower m.«from» val with
      | (none, a) => .ok ({ m with «from» := a }, rest, pos)
      | (some e, a) => .error (e, { m with «from» := a })
    | some .«to» =>
      match Author.Parse nfc lower m.«to» val with
      | (none, a) => .ok ({ m with «to» := a }, rest, pos)
      | (some e, a) => .error (e, { m with «to» := a })
    | some .time =>
      match ptime (trimSpace val) with
      | some t => .ok ({ m with time := t }, rest, pos)
      | none => .error (.invalidTimeFormat, m)
    | some .body =>
      match parseUint10 (trimSpace val) with
      | none => .error (.invalidSize, m)
      | some size =>
        if MAX_BODY_SIZE < size then .error (.bodyTooLarge, m)
        else if rest.length < size then .error (.truncatedBody, { m with body := [] })
        else .ok ({ m with body := rest.take size }, rest.drop size, pos + size)
    | some .file =>
      let lv := trimSpace val
      let (nm, sizeStr) :=
        match indexOfByte 32 lv with
        | some q => (trimSpace (lv.drop q), lv.take q)
        | none => ([], lv)
      match parseUint10 sizeStr with
      | none => .error (.invalidSize, m)
      | some size64 =>
        if 2 ^ 63 ≤ size64 then .error (.negativeCount, m)
        else if rest.length < size64 then .error (.truncatedAttachment, m)
        else .ok ({ m with files := m.files ++ [⟨nm, pos, size64⟩] },
                  rest.drop size64, pos + size64)

/-- The header loop of `ParseReader`: read a line, dispatch, repeat until
EOF.  Every iteration consumes at least one byte, so the fuel
`input.length + 1` supplied by `ParseReader` never runs out. -/
def parseLoop (nfc lower : List Nat → List Nat) (ptime : List Nat → Option Int)
    (k : Nat) : Nat → List Nat → Nat → Message → Except (PErr × Message) Message
  | 0, _, _, m => .error (.internal, m)
  | fuel + 1, rest, pos, m =>
    match readLine k rest with
    | .eof => .ok m
    | .tooLong => .error (.fieldTooLong, m)
    | .line l c =>
      match handleLine nfc lower ptime l (rest.drop c) (pos + c) m with
      | .error e => .error e
      | .ok (m2, rest2, pos2) => parseLoop nfc lower ptime k fuel rest2 pos2 m2

/-- `Message.UpdateIdFromTime`: reject times before the epoch base, else
write `uint32(ut - idEpochBase)` big-endian into the identifier's leading
four bytes (the cast silently truncates modulo `2 ^ 32`). -/
def Message.UpdateIdFromTime (m : Message) : Except PErr Message :=
  if m.time < idEpochBase then .error .timestampInPast
  else
    let sec := (m.time - idEpochBase).toNat % 2 ^ 32
    .ok { m with id :=
      [sec / 2 ^ 24 % 256, sec / 2 ^ 16 % 256, sec / 2 ^ 8 % 256, sec % 256]
        ++ m.id.drop 4 }

/-- `Message.ParseReader` over a pure byte stream `r`: run the header loop
with the buffer capacity derived from the size hint (`bufio.NewReaderSize`
enforces its 16-byte minimum), then finalize the identifier: bytes 4..23
become the first 20 bytes of the SHA-256 digest of every byte read (at a
successful EOF that is the whole input), and the leading 4 bytes come from
`UpdateIdFromTime`.  `sha` stands for the SHA-256 function. -/
def Message.ParseReader (nfc lower : List Nat → List Nat)
    (ptime : List Nat → Option Int) (sha : List Nat → List Nat)
    (r : List Nat) (srcsize : Nat) (m : Message) :
    Except (PErr × Message) Message :=
  let k := max (parseBufSize srcsize) 16
  match parseLoop nfc lower ptime k (r.length + 1) r 0 m with
  | .error e => .error e
  | .ok m1 =>
    let m2 := { m1 with id := m1.id.take 4 ++ (sha r).take 20 }
    match m2.UpdateIdFromTime with
    | .error e => .error (e, m2)
    | .ok m3 => .ok m3

/-! ## Identifier encoding (Message.EncodeId / Message.IdString) -/

/-- `base62Characters`. -/
def base62Characters : List Nat :=
  bytes "0123456789ABCDEFGHIJKLMNOPQRSTUVWXYZabcdefghijklmnopqrstuvwxyz"

/-- One 32-bit big-endian word of the identifier, as built in `EncodeId`. -/
def idWord (id : List Nat) (i : Nat) : Nat :=
  (id.getD i 0) <<< 24 ||| (id.getD (i + 1) 0) <<< 16 |||
    (id.getD (i + 2) 0) <<< 8 ||| id.getD (i + 3) 0

/-- The inner division pass of `EncodeId`: divide the multi-word value `bp`
(32-bit words, most significant first) by 62, returning the quotient with
leading zero words dropped and the remainder. -/
def divStep (bp : List Nat) : List Nat × Nat :=
  bp.foldl
    (fun acc c =>
      let value := c + acc.2 * 4294967296
      let digit := value / 62
      let r := value % 62
      (if acc.1 ≠ [] ∨ digit ≠ 0 then acc.1 ++ [digit] else acc.1, r))
    ([], 0)

/-- The outer loop of `EncodeId`: repeatedly divide by 62, writing each
remainder's base-62 character into `dst` right to left (`n` is the write
cursor, decremented before each write as in the Go code).  A 192-bit value
needs at most 33 digits, so the fuel passed by `EncodeId` suffices. -/
def encodeIdLoop : Nat → List Nat → List Nat → Nat → List Nat × Nat
  | 0, _, dst, n => (dst, n)
  | fuel + 1, bp, dst, n =>
    if bp = [] then (dst, n)
    else
      let (q, r) := divStep bp
      encodeIdLoop fuel q (dst.set (n - 1) (base62Characters.getD r 0)) (n - 1)

/-- `Message.EncodeId`: write the base-62 digits of the six-word identifier
value at the end of `dst`, prefix the '0' sentinel, and return `dst[n-1:]`
(the Go slice starts one byte before the sentinel). -/
def Message.EncodeId (id dst : List Nat) : List Nat :=
  let parts := [idWord id 0, idWord id 4, idWord id 8, idWord id 12,
                idWord id 16, idWord id 20]
  let (dst1, n1) := encodeIdLoop 64 parts dst dst.length
  let n2 := n1 - 1
  let dst2 := dst1.set n2 48
  dst2.drop (n2 - 1)

/-- `Message.IdString`: encode into a zeroed 50-byte buffer. -/
def Message.IdString (id : List Nat) : List Nat :=
  Message.EncodeId id (List.replicate 50 0)

/-- Attachment bookkeeping invariant at delivered-byte position `pos`: every
recorded range ends at or before `pos`, and `dataStart` values are strictly
increasing in declaration order. -/
def FilesOk (fs : List Attachment) (pos : Nat) : Prop :=
  (∀ a ∈ fs, a.dataStart + a.dataLen ≤ pos) ∧
    List.Pairwise (fun a b => a.dataStart < b.dataStart) fs

/-! ## Helper lemmas -/

theorem indexOfByte_lt_length {b : Nat} :
    ∀ {l : List Nat} {i : Nat}, indexOfByte b l = some i → i < l.length := by
  intro l
  induction l with
  | nil => intro i h; simp [indexOfByte] at h
  | cons c l ih =>
    intro i h
    simp only [indexOfByte] at h
    split at h
    · cases h; simp
    · cases hj : indexOfByte b l with
      | none => rw [hj] at h; simp at h
      | some j =>
        rw [hj] at h
        simp only [Option.map_some'] at h
        cases h
        have := ih hj
        simp; omega

theorem indexOfByte_append_cons {b : Nat} {v : List Nat} :
    ∀ {key : List Nat}, b ∉ key →
      indexOfByte b (key ++ b :: v) = some key.length := by
  intro key
  induction key with
  | nil => intro _; simp [indexOfByte]
  | cons c l ih =>
    intro h
    have hc : c ≠ b := fun hcb => h (by simp [hcb])
    have hl : b ∉ l := fun hbl => h (by simp [hbl])
    simp only [List.cons_append, indexOfByte, beq_iff_eq, if_neg hc,
      List.append_eq, ih hl, Option.map_some', List.length_cons]

theorem trimSpace_cons_space (v : List Nat) : trimSpace (32 :: v) = trimSpace v := by
  simp [trimSpace, List.dropWhile, isSpaceByte]

theorem readLine_eof {k : Nat} {rest : List Nat}
    (h : readLine k rest = .eof) : rest = [] := by
  by_contra hne
  simp only [readLine, if_neg hne] at h
  split at h
  · simp at h
  · split at h <;> simp at h

theorem readLine_line_bounds {k : Nat} {rest l : List Nat} {c : Nat}
    (h : readLine k rest = .line l c) : 1 ≤ c ∧ c ≤ rest.length := by
  by_cases hne : rest = []
  · subst hne; simp [readLine] at h
  · simp only [readLine, if_neg hne] at h
    split at h
    · rename_i i hi
      cases h
      have := indexOfByte_lt_length hi
      have : i < rest.length := by
        have hlen : (rest.take k).length ≤ rest.length := by
          simp [List.length_take]
        omega
      omega
    · split at h
      · cases h
      · cases h
        constructor
        · have : rest.length ≠ 0 := fun h0 => hne (List.length_eq_zero.mp h0)
          omega
        · exact le_refl _

theorem FilesOk.mono {fs : List Attachment} {p q : Nat}
    (h : FilesOk fs p) (hpq : p ≤ q) : FilesOk fs q :=
  ⟨fun a ha => le_trans (h.1 a ha) hpq, h.2⟩

theorem FilesOk.extend {fs : List Attachment} {p s d : Nat} {nm : List Nat}
    (h : FilesOk fs p) (hps : p < s) :
    FilesOk (fs ++ [⟨nm, s, d⟩]) (s + d) := by
  constructor
  · intro a ha
    rcases List.mem_append.mp ha with ha | ha
    · have := h.1 a ha
      omega
    · simp at ha
      subst ha
      simp
  · refine List.pairwise_append.mpr ⟨h.2, List.pairwise_singleton _ _, ?_⟩
    intro a ha b hb
    simp at hb
    subst hb
    have := h.1 a ha
    simp
    omega

/-- Characterization of a successful `handleLine`: it consumes `d` payload
bytes from the remainder, advances the position by exactly `d`, and either
leaves the attachment list unchanged or appends one attachment whose
`dataStart` is the position at which the header line was handled and whose
`dataLen` is `d`. -/
theorem handleLine_ok {nfc lower : List Nat → List Nat}
    {ptime : List Nat → Option Int} {l rest : List Nat} {pos : Nat}
    {m m2 : Message} {rest2 : List Nat} {pos2 : Nat}
    (h : handleLine nfc lower ptime l rest pos m = .ok (m2, rest2, pos2)) :
    ∃ d, d ≤ rest.length ∧ rest2 = rest.drop d ∧ pos2 = pos + d ∧
      (m2.files = m.files ∨ ∃ nm, m2.files = m.files ++ [⟨nm, pos, d⟩]) := by
  simp only [handleLine] at h
  split at h
  · simp at h
  · split at h
    · simp only [Except.ok.injEq, Prod.mk.injEq] at h
      obtain ⟨hm, hr, hp⟩ := h
      exact ⟨0, Nat.zero_le _, by rw [← hr, List.drop_zero], by omega,
        Or.inl (by rw [← hm])⟩
    · split at h
      · split at h
        · simp only [Except.ok.injEq, Prod.mk.injEq] at h
          obtain ⟨hm, hr, hp⟩ := h
          exact ⟨0, Nat.zero_le _, by rw [← hr, List.drop_zero], by omega,
            Or.inl (by rw [← hm])⟩
        · simp at h
      · simp only [Except.ok.injEq, Prod.mk.injEq] at h
        obtain ⟨hm, hr, hp⟩ := h
        exact ⟨0, Nat.zero_le _, by rw [← hr, List.drop_zero], by omega,
          Or.inl (by rw [← hm])⟩
      · split at h
        · simp only [Except.ok.injEq, Prod.mk.injEq] at h
          obtain ⟨hm, hr, hp⟩ := h
          exact ⟨0, Nat.zero_le _, by rw [← hr, List.drop_zero], by omega,
            Or.inl (by rw [← hm])⟩
        · simp at h
      · split at h
        · simp only [Except.ok.injEq, Prod.mk.injEq] at h
          obtain ⟨hm, hr, hp⟩ := h
          exact ⟨0, Nat.zero_le _, by rw [← hr, List.drop_zero], by omega,
            Or.inl (by rw [← hm])⟩
        · simp at h
      · split at h
        · simp only [Except.ok.injEq, Prod.mk.injEq] at h
          obtain ⟨hm, hr, hp⟩ := h
          exact ⟨0, Nat.zero_le _, by rw [← hr, List.drop_zero], by omega,
            Or.inl (by rw [← hm])⟩
        · simp at h
      · split at h
        · simp at h
        · split at h
          · simp at h
          · split at h
            · simp at h
            · rename_i size hsize hmax hlen
              simp only [Except.ok.injEq, Prod.mk.injEq] at h
              obtain ⟨hm, hr, hp⟩ := h
              exact ⟨size, by omega, by rw [← hr], by omega,
                Or.inl (by rw [← hm])⟩
      · split at h
        · simp at h
        · split at h
          · simp at h
          · split at h
            · simp at h
            · rename_i size64 hsize hbig hlen
              simp only [Except.ok.injEq, Prod.mk.injEq] at h
              obtain ⟨hm, hr, hp⟩ := h
              exact ⟨size64, by omega, by rw [← hr], by omega,
                Or.inr ⟨_, by rw [← hm]⟩⟩

/-- The header loop preserves the attachment invariant: starting from
position `pos` with `FilesOk` holding, a successful run ends with `FilesOk`
at position `pos + rest.length` (every remaining byte is delivered by the
time EOF is reached). -/
theorem parseLoop_ok_filesOk {nfc lower : List Nat → List Nat}
    {ptime : List Nat → Option Int} {k : Nat} :
    ∀ {fuel : Nat} {rest : List Nat} {pos : Nat} {m mf : Message},
      rest.length < fuel → FilesOk m.files pos →
      parseLoop nfc lower ptime k fuel rest pos m = .ok mf →
      FilesOk mf.files (pos + rest.length) := by
  intro fuel
  induction fuel with
  | zero => intro rest pos m mf hfuel; omega
  | succ fuel ih =>
    intro rest pos m mf hfuel hinv h
    simp only [parseLoop] at h
    split at h
    · rename_i hrl
      cases h
      have : rest = [] := readLine_eof hrl
      subst this
      simpa using hinv
    · simp at h
    · rename_i l c hrl
      split at h
      · simp at h
      · rename_i step m2 rest2 pos2 hstep
        obtain ⟨hc1, hc2⟩ := readLine_line_bounds hrl
        obtain ⟨d, hd, hrest2, hpos2, hfiles⟩ := handleLine_ok hstep
        have hdl : d ≤ rest.length - c := by
          simpa [List.length_drop] using hd
        have hinv2 : FilesOk m2.files pos2 := by
          rcases hfiles with hsame | ⟨nm, happ⟩
          · rw [hsame, hpos2]
            exact hinv.mono (by omega)
          · rw [happ, hpos2]
            exact hinv.extend (by omega)
        have hlen2 : rest2.length < fuel := by
          rw [hrest2]
          simp only [List.length_drop]
          omega
        have := ih hlen2 hinv2 h
        rw [hrest2] at this
        simp only [List.length_drop] at this
        have heq : pos2 + (rest.length - c - d) = pos + rest.length := by omega
        rwa [heq] at this

/-- `Author.Parse` only ever fails with the missing-address or
invalid-address error. -/
theorem normalizeAndValidateAddress_error_kind {nfc lower : List Nat → List Nat}
    {a : List Nat} {e : PErr}
    (h : normalizeAndValidateAddress nfc lower a = .error e) :
    e = .invalidAddress := by
  simp only [normalizeAndValidateAddress] at h
  split at h <;> simp_all

theorem Author.Parse_error_kind {nfc lower : List Nat → List Nat}
    {a a2 : Author} {line : List Nat} {e : PErr}
    (h : Author.Parse nfc lower a line = (some e, a2)) :
    e = .missingAddress ∨ e = .invalidAddress := by
  simp only [Author.Parse] at h
  split at h
  · cases h; exact Or.inl rfl
  · cases hidx : indexOfByte 32 (trimSpace line) with
    | some p =>
      simp only [hidx] at h
      cases hnorm : normalizeAndValidateAddress nfc lower ((trimSpace line).take p) with
      | ok addr => simp [hnorm] at h
      | error e2 =>
        simp only [hnorm, Prod.mk.injEq, Option.some.injEq] at h
        exact Or.inr (h.1 ▸ normalizeAndValidateAddress_error_kind hnorm)
    | none =>
      simp only [hidx] at h
      cases hnorm : normalizeAndValidateAddress nfc lower (trimSpace line) with
      | ok addr => simp [hnorm] at h
      | error e2 =>
        simp only [hnorm, Prod.mk.injEq, Option.some.injEq] at h
        exact Or.inr (h.1 ▸ normalizeAndValidateAddress_error_kind hnorm)

/-- When `handleLine` fails with the truncated-body error, the message it
returns has an empty body (the Go code resets `m.body = m.body[:0]` before
returning the read error). -/
theorem handleLine_trunc_body {nfc lower : List Nat → List Nat}
    {ptime : List Nat → Option Int} {l rest : List Nat} {pos : Nat}
    {m me : Message}
    (h : handleLine nfc lower ptime l rest pos m = .error (.truncatedBody, me)) :
    me.body = [] := by
  simp only [handleLine] at h
  split at h
  · simp at h
  · split at h
    · simp at h
    · split at h
      · split at h
        · simp at h
        · simp at h
      · simp at h
      · split at h
        · simp at h
        · rename_i e a hpe
          simp only [Except.error.injEq, Prod.mk.injEq] at h
          obtain ⟨he, hm⟩ := h
          rcases Author.Parse_error_kind hpe with h' | h' <;> simp [h'] at he
      · split at h
        · simp at h
        · rename_i e a hpe
          simp only [Except.error.injEq, Prod.mk.injEq] at h
          obtain ⟨he, hm⟩ := h
          rcases Author.Parse_error_kind hpe with h' | h' <;> simp [h'] at he
      · split at h
        · simp at h
        · simp at h
      · split at h
        · simp at h
        · split at h
          · simp at h
          · split at h
            · simp only [Except.error.injEq, Prod.mk.injEq] at h
              rw [← h.2]
            · simp at h
      · split at h
        · simp at h
        · split at h
          · simp at h
          · split at h
            · simp at h
            · simp at h

theorem parseLoop_trunc_body {nfc lower : List Nat → List Nat}
    {ptime : List Nat → Option Int} {k : Nat} :
    ∀ {fuel : Nat} {rest : List Nat} {pos : Nat} {m me : Message},
      parseLoop nfc lower ptime k fuel rest pos m = .error (.truncatedBody, me) →
      me.body = [] := by
  intro fuel
  induction fuel with
  | zero => intro rest pos m me h; simp [parseLoop] at h
  | succ fuel ih =>
    intro rest pos m me h
    simp only [parseLoop] at h
    split at h
    · simp at h
    · simp at h
    · split at h
      · rename_i e herr
        cases h
        exact handleLine_trunc_body herr
      · exact ih h

theorem Message.UpdateIdFromTime_error_kind {m : Message} {e : PErr}
    (h : m.UpdateIdFromTime = .error e) : e = .timestampInPast := by
  simp only [Message.UpdateIdFromTime] at h
  split at h
  · cases h; rfl
  · simp at h

theorem Message.UpdateIdFromTime_ok_fields {m m2 : Message}
    (h : m.UpdateIdFromTime = .ok m2) :
    m2.files = m.files ∧ m2.body = m.body := by
  simp only [Message.UpdateIdFromTime] at h
  split at h
  · simp at h
  · cases h; exact ⟨rfl, rfl⟩

theorem fieldtab_eq_none {key : List Nat}
    (h : key ∉ [bytes "subject", bytes "from", bytes "to", bytes "time",
      bytes "body", bytes "file"]) :
    fieldtab key = none := by
  simp only [List.mem_cons, List.not_mem_nil, or_false, not_or] at h
  obtain ⟨h1, h2, h3, h4, h5, h6⟩ := h
  simp [fieldtab, h1, h2, h3, h4, h5, h6]

theorem log2floor_eq_log2 :
    ∀ fuel n, n < 2 ^ fuel → log2floor fuel n = Nat.log2 n := by
  intro fuel
  induction fuel with
  | zero =>
    intro n h
    have : n = 0 := by simpa using h
    subst this
    simp [log2floor, Nat.log2]
  | succ fuel ih =>
    intro n h
    by_cases h1 : n ≤ 1
    · interval_cases n <;> simp [log2floor, Nat.log2]
    · have h2 : 2 ≤ n := by omega
      have hhalf : n / 2 < 2 ^ fuel := by
        have := Nat.pow_succ 2 fuel
        omega
      rw [log2floor, if_neg h1, ih _ hhalf]
      conv_rhs => rw [Nat.log2]
      rw [if_pos h2]

theorem normalizeAndValidateAddress_ok {nfc lower : List Nat → List Nat}
    {a out : List Nat}
    (h : normalizeAndValidateAddress nfc lower a = .ok out) :
    out = lower (nfc a) ∧ 64 ∈ out := by
  simp only [normalizeAndValidateAddress] at h
  split at h
  · cases h; exact ⟨rfl, by assumption⟩
  · simp at h

/-! ## Claim theorems -/

/-- C1: the claim says `EncodeId` (and hence `IdString`) returns exactly a
single deliberate '0' sentinel followed by the base-62 digits of the
192-bit value, with no extra leading byte.  Evaluating the code shows the
returned slice `dst[n-1:]` starts one byte before the sentinel: for the
all-zero identifier, `IdString` yields the three bytes `0x00 '0' '0'`
instead of the two bytes `'0' '0'`, and similarly for a nonzero identifier
(last byte 61, whose single base-62 digit is 'z').  The digit part itself
carries no unnecessary leading '0' digits; the defect is purely the extra
uninitialized leading byte. -/
theorem C1_encodeId_extra_leading_byte :
    Message.IdString (List.replicate 24 0) = [0, 48, 48] ∧
    Message.IdString (List.replicate 24 0) ≠ [48, 48] ∧
    Message.IdString (List.replicate 23 0 ++ [61]) = [0, 48, 122] := by
  decide

/-- C2 counterexample: a read that delivers three bytes together with an
end-of-stream error advances the consumed-byte counter by 0, not 3, and
feeds nothing into the digest — contradicting the claim's "including bytes
delivered by a read that simultaneously reports an error or end of
stream". -/
theorem C2_error_read_bytes_uncounted :
    (HashingCountingReader.Read ⟨0, []⟩ ([1, 2, 3], some .eofErr)).1 =
      ([1, 2, 3], some .eofErr) ∧
    (HashingCountingReader.Read ⟨0, []⟩ ([1, 2, 3], some .eofErr)).2.nread ≠ 3 ∧
    (HashingCountingReader.Read ⟨0, []⟩ ([1, 2, 3], some .eofErr)).2.hashed ≠
      [1, 2, 3] := by
  decide

/-- C2 amended: every read returns the delivered bytes and the underlying
error unchanged; when the underlying read reports no error, the counter
advances by exactly the number of delivered bytes and the same bytes are
fed into the digest; when it simultaneously reports an error, the counter
and the digest are left untouched. -/
theorem C2_read_counts_error_free_reads (r : HashingCountingReader)
    (data : List Nat) (e : Option RdErr) :
    (HashingCountingReader.Read r (data, e)).1 = (data, e) ∧
    (e = none →
      (HashingCountingReader.Read r (data, e)).2.nread = r.nread + data.length ∧
      (HashingCountingReader.Read r (data, e)).2.hashed = r.hashed ++ data) ∧
    (e ≠ none → (HashingCountingReader.Read r (data, e)).2 = r) := by
  cases e <;> simp [HashingCountingReader.Read]

theorem C2_read_counts_error_free_reads_witness :
    (HashingCountingReader.Read ⟨0, []⟩ ([1, 2], none)).2.nread = 0 + [1, 2].length ∧
    (HashingCountingReader.Read ⟨0, []⟩ ([1, 2], none)).2.hashed = [] ++ [1, 2] :=
  (C2_read_counts_error_free_reads ⟨0, []⟩ [1, 2] none).2.1 rfl

/-- C4: the claim requires times past 2156-10-20T18:54:55Z (offset `2 ^ 32`
from the epoch base) to fail with a timestamp-out-of-range error.  The code
has no such check: `UpdateIdFromTime` succeeds on `idEpochBase + 2 ^ 32`,
silently truncating the offset modulo `2 ^ 32` and writing the same leading
identifier bytes as the epoch base itself would, while a time before the
epoch base does fail as the claim states. -/
theorem C4_timestamp_overflow_wraps :
    Message.UpdateIdFromTime (freshMessage (idEpochBase + 2 ^ 32)) =
      .ok { freshMessage (idEpochBase + 2 ^ 32) with id := List.replicate 24 0 } ∧
    Message.UpdateIdFromTime (freshMessage idEpochBase) =
      .ok { freshMessage idEpochBase with id := List.replicate 24 0 } ∧
    Message.UpdateIdFromTime (freshMessage (idEpochBase - 1)) =
      .error .timestampInPast := by
  decide

/-- C6 counterexample: the address `"a@b@c"` (already NFC-normal and
lower-case, so the identity instantiation of the normalizer and ASCII
lower-casing are exact) is accepted although it contains two '@'
separators, refuting "exactly one '@' separator". -/
theorem C6_two_at_signs_accepted :
    normalizeAndValidateAddress (fun l => l) toLowerAscii (bytes "a@b@c") =
      .ok (bytes "a@b@c") ∧
    (bytes "a@b@c").count 64 = 2 ∧
    (bytes "a@b@c").count 64 ≠ 1 := by
  decide

/-- C6 amended: address normalization applies NFC composition and then
lower-casing (every success returns `lower (nfc addr)`), fails with the
invalid-address error exactly when the '@' separator is absent from the
normalized form, and every address it produces — hence every address
`Author.Parse` stores — contains at least one '@' separator (the code
checks presence, not uniqueness). -/
theorem C6_address_normalization (nfc lower : List Nat → List Nat)
    (addr : List Nat) :
    (64 ∉ lower (nfc addr) →
      normalizeAndValidateAddress nfc lower addr = .error .invalidAddress) ∧
    (∀ out, normalizeAndValidateAddress nfc lower addr = .ok out →
      out = lower (nfc addr) ∧ 64 ∈ out) ∧
    (∀ a0 a1 line, Author.Parse nfc lower a0 line = (none, a1) →
      64 ∈ a1.address) := by
  refine ⟨?_, ?_, ?_⟩
  · intro hno
    simp [normalizeAndValidateAddress, hno]
  · intro out h
    exact normalizeAndValidateAddress_ok h
  · intro a0 a1 line h
    simp only [Author.Parse] at h
    split at h
    · simp at h
    · cases hidx : indexOfByte 32 (trimSpace line) with
      | some p =>
        simp only [hidx] at h
        cases hnorm : normalizeAndValidateAddress nfc lower
            ((trimSpace line).take p) with
        | ok out =>
          simp only [hnorm, Prod.mk.injEq] at h
          rw [← h.2]
          exact (normalizeAndValidateAddress_ok hnorm).2
        | error e2 => simp [hnorm] at h
      | none =>
        simp only [hidx] at h
        cases hnorm : normalizeAndValidateAddress nfc lower (trimSpace line) with
        | ok out =>
          simp only [hnorm, Prod.mk.injEq] at h
          rw [← h.2]
          exact (normalizeAndValidateAddress_ok hnorm).2
        | error e2 => simp [hnorm] at h

theorem C6_address_normalization_witness :
    normalizeAndValidateAddress (fun l => l) toLowerAscii (bytes "nobody") =
      .error .invalidAddress ∧
    64 ∈ bytes "bob@host" :=
  ⟨(C6_address_normalization (fun l => l) toLowerAscii (bytes "nobody")).1
      (by decide),
   ((C6_address_normalization (fun l => l) toLowerAscii (bytes "Bob@Host")).2.1
      (bytes "bob@host") (by decide)).2⟩

/-- C7 counterexample: for the hint 3 the code computes a buffer size of 4
(`1 << ilog2 4`, since the code rounds `hint + 1`, not the hint), while the
claimed "hint rounded down to the nearest power of two, capped at 4096"
is 2. -/
theorem C7_bufsize_not_hint_rounded_down :
    parseBufSize 3 = 4 ∧ specHintBufSize 3 = 2 ∧
      parseBufSize 3 ≠ specHintBufSize 3 := by
  have hl : Nat.log2 3 = 1 := by
    have h1 : 1 ≤ Nat.log2 3 := (Nat.le_log2 (by omega)).mpr (by norm_num)
    have h2 : Nat.log2 3 < 2 := (Nat.log2_lt (by omega)).mpr (by norm_num)
    omega
  have hs : specHintBufSize 3 = 2 := by norm_num [specHintBufSize, hl]
  exact ⟨by decide, hs, by rw [hs]; decide⟩

/-- C7 amended: the computed read-buffer size equals `hint + 1` (not the
hint) rounded down by the spec's own rounding function (`specHintBufSize`:
round down to the nearest power of two and cap at 4096), with a minimum of
2 (hints 0 and 1 both give 2, because `ilog2` returns 1 on inputs at most
1); and the hint influences parsing only through this computed buffer
size. -/
theorem C7_bufsize_rounding :
    (∀ h, parseBufSize h = max (specHintBufSize (h + 1)) 2) ∧
    (∀ (nfc lower : List Nat → List Nat) (ptime : List Nat → Option Int)
        (sha : List Nat → List Nat) (input : List Nat) (m0 : Message)
        (s1 s2 : Nat), parseBufSize s1 = parseBufSize s2 →
      Message.ParseReader nfc lower ptime sha input s1 m0 =
        Message.ParseReader nfc lower ptime sha input s2 m0) := by
  constructor
  · intro h
    simp only [specHintBufSize]
    by_cases hbig : h + 1 > 4096
    · have hlog : 12 ≤ Nat.log2 (h + 1) :=
        (Nat.le_log2 (by omega)).mpr (by norm_num; omega)
      have hpow : 4096 ≤ 2 ^ Nat.log2 (h + 1) := by
        calc (4096 : Nat) = 2 ^ 12 := by norm_num
          _ ≤ 2 ^ Nat.log2 (h + 1) := Nat.pow_le_pow_right (by omega) hlog
      have hcode : parseBufSize h = 4096 := by
        simp only [parseBufSize, if_pos hbig]
        decide
      omega
    · by_cases h0 : h = 0
      · subst h0
        have hl1 : Nat.log2 1 = 0 := by simp [Nat.log2]
        have hc : parseBufSize 0 = 2 := by decide
        rw [hc, hl1]
        decide
      · have h2 : ¬ h + 1 ≤ 1 := by omega
        have hb : log2floor 64 (h + 1) = Nat.log2 (h + 1) :=
          log2floor_eq_log2 64 (h + 1)
            (by calc h + 1 ≤ 4096 := by omega
                  _ < 2 ^ 64 := by norm_num)
        simp only [parseBufSize, if_neg hbig, ilog2, if_neg h2, hb,
          Nat.one_shiftLeft]
        have h1 : 1 ≤ Nat.log2 (h + 1) :=
          (Nat.le_log2 (by omega)).mpr (by norm_num; omega)
        have hp : 2 ≤ 2 ^ Nat.log2 (h + 1) := by
          calc (2 : Nat) = 2 ^ 1 := by norm_num
            _ ≤ 2 ^ Nat.log2 (h + 1) := Nat.pow_le_pow_right (by omega) h1
        have hself : 2 ^ Nat.log2 (h + 1) ≤ h + 1 :=
          Nat.log2_self_le (by omega)
        omega
  · intro nfc lower ptime sha input m0 s1 s2 hs
    simp only [Message.ParseReader, hs]

theorem C7_bufsize_rounding_witness :
    parseBufSize 7 = max (specHintBufSize (7 + 1)) 2 ∧
    Message.ParseReader (fun l => l) toLowerAscii (fun _ => none)
        (fun _ => List.replicate 32 5) (bytes "subject Hi") 4 (freshMessage 0) =
      Message.ParseReader (fun l => l) toLowerAscii (fun _ => none)
        (fun _ => List.replicate 32 5) (bytes "subject Hi") 5 (freshMessage 0) :=
  ⟨C7_bufsize_rounding.1 7,
   C7_bufsize_rounding.2 (fun l => l) toLowerAscii (fun _ => none)
     (fun _ => List.replicate 32 5) (bytes "subject Hi") (freshMessage 0) 4 5
     (by decide)⟩

/-- C5: for a `body` header line with declared-size text `v`, the size must
parse as a nonnegative decimal integer (otherwise the invalid-size error);
a parsed size above `MAX_BODY_SIZE` (8 MiB) fails with the body-too-large
error with the message untouched and without consuming any payload byte
(the error is the same for every stream remainder `rest`, including the
empty one); and a parsed size of at most 8 MiB — in particular exactly
8 MiB — is never rejected as too large. -/
theorem C5_body_size_limit (nfc lower : List Nat → List Nat)
    (ptime : List Nat → Option Int) (v rest : List Nat) (pos : Nat)
    (m : Message) :
    (parseUint10 (trimSpace v) = none →
      handleLine nfc lower ptime (bytes "body" ++ 32 :: v) rest pos m =
        .error (.invalidSize, m)) ∧
    (∀ size, parseUint10 (trimSpace v) = some size → MAX_BODY_SIZE < size →
      handleLine nfc lower ptime (bytes "body" ++ 32 :: v) rest pos m =
        .error (.bodyTooLarge, m)) ∧
    (∀ size me, parseUint10 (trimSpace v) = some size → size ≤ MAX_BODY_SIZE →
      handleLine nfc lower ptime (bytes "body" ++ 32 :: v) rest pos m ≠
        .error (.bodyTooLarge, me)) := by
  have hkey : (32 : Nat) ∉ bytes "body" := by decide
  have hlen : (bytes "body").length = 4 := by decide
  have hfi : indexOfByte 32 (bytes "body" ++ 32 :: v) = some 4 := by
    rw [indexOfByte_append_cons hkey, hlen]
  have htake : (bytes "body" ++ 32 :: v).take 4 = bytes "body" := by
    have := List.take_left (bytes "body") (32 :: v)
    rwa [hlen] at this
  have hdrop : (bytes "body" ++ 32 :: v).drop 4 = 32 :: v := by
    have := List.drop_left (bytes "body") (32 :: v)
    rwa [hlen] at this
  have hftab : fieldtab (bytes "body") = some Field.body := by decide
  refine ⟨?_, ?_, ?_⟩
  · intro hnone
    simp [handleLine, hfi, htake, hdrop, hftab, trimSpace_cons_space, hnone]
  · intro size hsome hbig
    simp [handleLine, hfi, htake, hdrop, hftab, trimSpace_cons_space,
      hsome, hbig]
  · intro size me hsome hle
    have hnbig : ¬ MAX_BODY_SIZE < size := by omega
    simp [handleLine, hfi, htake, hdrop, hftab, trimSpace_cons_space,
      hsome, hnbig]
    split <;> simp

theorem C5_body_size_limit_witness :
    handleLine (fun l => l) toLowerAscii (fun _ => none)
        (bytes "body" ++ 32 :: bytes "9999999999") [] 0 (freshMessage 0) =
      .error (.bodyTooLarge, freshMessage 0) ∧
    handleLine (fun l => l) toLowerAscii (fun _ => none)
        (bytes "body" ++ 32 :: bytes "8388608") [] 0 (freshMessage 0) ≠
      .error (.bodyTooLarge, freshMessage 0) :=
  ⟨(C5_body_size_limit (fun l => l) toLowerAscii (fun _ => none)
      (bytes "9999999999") [] 0 (freshMessage 0)).2.1 9999999999
      (by decide) (by decide),
   (C5_body_size_limit (fun l => l) toLowerAscii (fun _ => none)
      (bytes "8388608") [] 0 (freshMessage 0)).2.2 8388608 (freshMessage 0)
      (by decide) (by decide)⟩

/-- C8: for a header line whose keyword is not one of the six recognized
field names, the parse step fails with the unknown-field error when the
keyword does not begin with the extension marker "x-", and silently skips
the line — message, stream remainder and position all unchanged — when it
does. -/
theorem C8_unknown_field (nfc lower : List Nat → List Nat)
    (ptime : List Nat → Option Int) (key v rest : List Nat) (pos : Nat)
    (m : Message) (hne : key ≠ []) (hsp : (32 : Nat) ∉ key)
    (hk : key ∉ [bytes "subject", bytes "from", bytes "to", bytes "time",
      bytes "body", bytes "file"]) :
    (key.take 2 = bytes "x-" →
      handleLine nfc lower ptime (key ++ 32 :: v) rest pos m =
        .ok (m, rest, pos)) ∧
    (key.take 2 ≠ bytes "x-" →
      handleLine nfc lower ptime (key ++ 32 :: v) rest pos m =
        .error (.unknownField, m)) := by
  have hfi : indexOfByte 32 (key ++ 32 :: v) = some key.length :=
    indexOfByte_append_cons hsp
  have htake : (key ++ 32 :: v).take key.length = key := List.take_left _ _
  have hft : fieldtab key = none := fieldtab_eq_none hk
  constructor
  · intro hx
    simp [handleLine, hfi, htake, hft, hx, List.length_eq_zero, hne]
  · intro hx
    simp [handleLine, hfi, htake, hft, hx, List.length_eq_zero, hne]

theorem C8_unknown_field_witness :
    handleLine (fun l => l) toLowerAscii (fun _ => none)
        (bytes "color" ++ 32 :: bytes "red") [] 0 (freshMessage 0) =
      .error (.unknownField, freshMessage 0) ∧
    handleLine (fun l => l) toLowerAscii (fun _ => none)
        (bytes "x-color" ++ 32 :: bytes "red") [] 0 (freshMessage 0) =
      .ok (freshMessage 0, [], 0) :=
  ⟨(C8_unknown_field (fun l => l) toLowerAscii (fun _ => none)
      (bytes "color") (bytes "red") [] 0 (freshMessage 0) (by decide)
      (by decide) (by decide)).2 (by decide),
   (C8_unknown_field (fun l => l) toLowerAscii (fun _ => none)
      (bytes "x-color") (bytes "red") [] 0 (freshMessage 0) (by decide)
      (by decide) (by decide)).1 (by decide)⟩

/-- C3: for every successful parse starting from a message with no
attachments, the recorded `dataStart` values are strictly increasing across
the message's attachments in declaration order, and `dataStart + dataLen`
never exceeds the stream's consumed byte count (at a successful EOF the
whole input has been consumed).  In the embedding, `dataStart` is by
construction the delivered-byte count `cr.nread - br.Buffered()` at the
moment the file header is handled. -/
theorem C3_attachment_offsets (nfc lower : List Nat → List Nat)
    (ptime : List Nat → Option Int) (sha : List Nat → List Nat)
    (input : List Nat) (srcsize : Nat) (m0 mf : Message)
    (h0 : m0.files = [])
    (h : Message.ParseReader nfc lower ptime sha input srcsize m0 = .ok mf) :
    List.Pairwise (fun a b => a.dataStart < b.dataStart) mf.files ∧
    ∀ a ∈ mf.files, a.dataStart + a.dataLen ≤ input.length := by
  simp only [Message.ParseReader] at h
  cases hloop : parseLoop nfc lower ptime (max (parseBufSize srcsize) 16)
      (input.length + 1) input 0 m0 with
  | error e => simp [hloop] at h
  | ok m1 =>
    simp only [hloop] at h
    cases hupd : Message.UpdateIdFromTime
        { m1 with id := m1.id.take 4 ++ (sha input).take 20 } with
    | error e2 => simp [hupd] at h
    | ok m3 =>
      simp only [hupd, Except.ok.injEq] at h
      subst h
      have hinv : FilesOk m1.files (0 + input.length) :=
        parseLoop_ok_filesOk (by omega)
          (by rw [h0]; exact ⟨by simp, List.Pairwise.nil⟩) hloop
      have hf := (Message.UpdateIdFromTime_ok_fields hupd).1
      rw [hf]
      refine ⟨hinv.2, fun a ha => ?_⟩
      have := hinv.1 a ha
      omega

theorem C3_attachment_offsets_witness :
    List.Pairwise (fun a b => a.dataStart < b.dataStart)
      (Message.mk ([0, 0, 0, 0] ++ List.replicate 20 5) 1600000000 []
        ⟨[], []⟩ ⟨[], []⟩ []
        [⟨bytes "a", 9, 1⟩, ⟨bytes "b", 19, 2⟩]).files ∧
    ∀ a ∈ (Message.mk ([0, 0, 0, 0] ++ List.replicate 20 5) 1600000000 []
        ⟨[], []⟩ ⟨[], []⟩ []
        [⟨bytes "a", 9, 1⟩, ⟨bytes "b", 19, 2⟩]).files,
      a.dataStart + a.dataLen ≤ (bytes "file 1 a\nZfile 2 b\nYY").length :=
  C3_attachment_offsets (fun l => l) toLowerAscii (fun _ => none)
    (fun _ => List.replicate 32 5) (bytes "file 1 a\nZfile 2 b\nYY") 0
    (freshMessage 1600000000)
    (Message.mk ([0, 0, 0, 0] ++ List.replicate 20 5) 1600000000 []
      ⟨[], []⟩ ⟨[], []⟩ []
      [⟨bytes "a", 9, 1⟩, ⟨bytes "b", 19, 2⟩])
    (by decide) (by decide)

/-- C9: parsing is deterministic and idempotent — two parses of
byte-identical streams into fresh messages carrying the same externally
supplied time, with the same size hint and the same library functions,
yield equal identifiers and equal subject, from, to, body and attachment
descriptors. -/
theorem C9_parse_deterministic (nfc lower : List Nat → List Nat)
    (ptime : List Nat → Option Int) (sha : List Nat → List Nat)
    (input : List Nat) (srcsize : Nat) (t : Int) (m1 m2 : Message)
    (h1 : Message.ParseReader nfc lower ptime sha input srcsize
      (freshMessage t) = .ok m1)
    (h2 : Message.ParseReader nfc lower ptime sha input srcsize
      (freshMessage t) = .ok m2) :
    m1.id = m2.id ∧ m1.subject = m2.subject ∧ m1.«from» = m2.«from» ∧
    m1.«to» = m2.«to» ∧ m1.body = m2.body ∧ m1.files = m2.files := by
  have h : m1 = m2 := Except.ok.inj (h1.symm.trans h2)
  subst h
  exact ⟨rfl, rfl, rfl, rfl, rfl, rfl⟩

theorem C9_parse_deterministic_witness :
    (Message.mk ([0, 0, 0, 0] ++ List.replicate 20 5) 1600000000 (bytes "Hi")
        ⟨bytes "a@b", bytes "Bo"⟩ ⟨[], []⟩ (bytes "xyz") []).id =
      (Message.mk ([0, 0, 0, 0] ++ List.replicate 20 5) 1600000000 (bytes "Hi")
        ⟨bytes "a@b", bytes "Bo"⟩ ⟨[], []⟩ (bytes "xyz") []).id ∧
    (Message.mk ([0, 0, 0, 0] ++ List.replicate 20 5) 1600000000 (bytes "Hi")
        ⟨bytes "a@b", bytes "Bo"⟩ ⟨[], []⟩ (bytes "xyz") []).subject =
      (Message.mk ([0, 0, 0, 0] ++ List.replicate 20 5) 1600000000 (bytes "Hi")
        ⟨bytes "a@b", bytes "Bo"⟩ ⟨[], []⟩ (bytes "xyz") []).subject ∧
    (Message.mk ([0, 0, 0, 0] ++ List.replicate 20 5) 1600000000 (bytes "Hi")
        ⟨bytes "a@b", bytes "Bo"⟩ ⟨[], []⟩ (bytes "xyz") []).«from» =
      (Message.mk ([0, 0, 0, 0] ++ List.replicate 20 5) 1600000000 (bytes "Hi")
        ⟨bytes "a@b", bytes "Bo"⟩ ⟨[], []⟩ (bytes "xyz") []).«from» ∧
    (Message.mk ([0, 0, 0, 0] ++ List.replicate 20 5) 1600000000 (bytes "Hi")
        ⟨bytes "a@b", bytes "Bo"⟩ ⟨[], []⟩ (bytes "xyz") []).«to» =
      (Message.mk ([0, 0, 0, 0] ++ List.replicate 20 5) 1600000000 (bytes "Hi")
        ⟨bytes "a@b", bytes "Bo"⟩ ⟨[], []⟩ (bytes "xyz") []).«to» ∧
    (Message.mk ([0, 0, 0, 0] ++ List.replicate 20 5) 1600000000 (bytes "Hi")
        ⟨bytes "a@b", bytes "Bo"⟩ ⟨[], []⟩ (bytes "xyz") []).body =
      (Message.mk ([0, 0, 0, 0] ++ List.replicate 20 5) 1600000000 (bytes "Hi")
        ⟨bytes "a@b", bytes "Bo"⟩ ⟨[], []⟩ (bytes "xyz") []).body ∧
    (Message.mk ([0, 0, 0, 0] ++ List.replicate 20 5) 1600000000 (bytes "Hi")
        ⟨bytes "a@b", bytes "Bo"⟩ ⟨[], []⟩ (bytes "xyz") []).files =
      (Message.mk ([0, 0, 0, 0] ++ List.replicate 20 5) 1600000000 (bytes "Hi")
        ⟨bytes "a@b", bytes "Bo"⟩ ⟨[], []⟩ (bytes "xyz") []).files :=
  C9_parse_deterministic (fun l => l) toLowerAscii (fun _ => none)
    (fun _ => List.replicate 32 5)
    (bytes "subject Hi\nfrom A@B Bo\nbody 3\nxyz") 0 1600000000
    (Message.mk ([0, 0, 0, 0] ++ List.replicate 20 5) 1600000000 (bytes "Hi")
      ⟨bytes "a@b", bytes "Bo"⟩ ⟨[], []⟩ (bytes "xyz") [])
    (Message.mk ([0, 0, 0, 0] ++ List.replicate 20 5) 1600000000 (bytes "Hi")
      ⟨bytes "a@b", bytes "Bo"⟩ ⟨[], []⟩ (bytes "xyz") [])
    (by decide) (by decide)

/-- C10: when reading the declared body payload fails because the stream
ends before the declared number of bytes is available, `ParseReader`
returns the error with the message's body field reset to length zero, so a
failed parse never exposes a partially filled body buffer. -/
theorem C10_failed_body_read_resets (nfc lower : List Nat → List Nat)
    (ptime : List Nat → Option Int) (sha : List Nat → List Nat)
    (input : List Nat) (srcsize : Nat) (m0 me : Message)
    (h : Message.ParseReader nfc lower ptime sha input srcsize m0 =
      .error (.truncatedBody, me)) :
    me.body = [] := by
  simp only [Message.ParseReader] at h
  cases hloop : parseLoop nfc lower ptime (max (parseBufSize srcsize) 16)
      (input.length + 1) input 0 m0 with
  | error e =>
    simp only [hloop, Except.error.injEq] at h
    rw [h] at hloop
    exact parseLoop_trunc_body hloop
  | ok m1 =>
    simp only [hloop] at h
    cases hupd : Message.UpdateIdFromTime
        { m1 with id := m1.id.take 4 ++ (sha input).take 20 } with
    | error e2 =>
      simp only [hupd, Except.error.injEq, Prod.mk.injEq] at h
      have := Message.UpdateIdFromTime_error_kind hupd
      rw [this] at h
      simp at h
    | ok m3 => simp [hupd] at h

theorem C10_failed_body_read_resets_witness :
    (freshMessage 0).body = [] :=
  C10_failed_body_read_resets (fun l => l) toLowerAscii (fun _ => none)
    (fun _ => List.replicate 32 5) (bytes "body 5\nab") 0 (freshMessage 0)
    (freshMessage 0) (by decide)

end Smolmsg
